import Mathlib

/-!
Shallow embedding of `fetch_proxies.py`: the node-processing pipeline of the
proxy-subscription merger — deduplication (`deduplicate_proxies`),
blocked-region filtering (`filter_blocked_regions`), concurrent latency
probing with ranking (`test_single_proxy`, `test_proxies_latency`), region
classification (`classify_by_region`) and routing-config assembly
(`build_config`, `build_rules`, driver `main`).

Machine conventions used throughout:
* latencies are kept in tenths of a millisecond (`Nat`): the source stores
  `round(latency_ms, 1)`, so every stored latency is a whole number of
  tenths, and `int(latency)` becomes division by 10;
* the network is an oracle `Net` mapping `(server, port)` to a measured
  latency or `none` (timeout / socket error);
* the nondeterministic completion order of the thread-pool futures
  (`as_completed`) is an explicit permutation parameter;
* a `none` result models an uncaught Python exception (`KeyError`) or a
  `sys.exit(1)` path.
-/

/-! ### Characters and pattern search

The two regex objects in the source (`BLOCKED_REGION_PATTERN` and the
patterns of `REGION_MAP`) are case-insensitive alternations whose
alternatives are literals, except three of the form `a.?b`
(`Hong.?Kong`, `United.?States`, `United.?Kingdom`).  They are embedded
as lists of such alternatives, and `re.search` as "some alternative
matches at some position". -/

/-- Lower-cased character list of a string; models `re.I` for the ASCII,
CJK and emoji alphabets appearing in the catalog patterns. -/
def lowChars (s : String) : List Char := s.data.map Char.toLower

/-- Python `str.strip()`: remove leading and trailing whitespace (the
common ASCII whitespace; exotic unicode spaces do not appear in the
claims).  Defined over the character list so that it evaluates by `rfl`. -/
def pyStrip (s : String) : String :=
  ⟨((s.data.dropWhile Char.isWhitespace).reverse.dropWhile Char.isWhitespace).reverse⟩

/-- Predicate `isPre a l`: `a` occurs at the start of `l`. -/
def isPre : List Char → List Char → Bool
  | [], _ => true
  | _ :: _, [] => false
  | a :: as, b :: bs => a == b && isPre as bs

/-- Predicate `anySuffix p l`: some suffix of `l` satisfies `p`; models trying a
pattern at every start position, as `re.search` does. -/
def anySuffix (p : List Char → Bool) : List Char → Bool
  | [] => p []
  | c :: t => p (c :: t) || anySuffix p t

/-- One alternative of an alternation: a literal, or `a.?b` (literal,
optional single character, literal). -/
inductive PatAlt where
  | lit (s : String)
  | gap (a b : String)
deriving DecidableEq

/-- Match `a.?b` at the start of `hay` (all three already lower-cased). -/
def gapHere (a b hay : List Char) : Bool :=
  if isPre a hay then
    let rest := hay.drop a.length
    isPre b rest || (!rest.isEmpty && isPre b (rest.drop 1))
  else false

/-- Does one alternative match anywhere in the (lower-cased) haystack? -/
def altMatch (hay : List Char) : PatAlt → Bool
  | .lit s => anySuffix (fun h => isPre (lowChars s) h) hay
  | .gap a b => anySuffix (fun h => gapHere (lowChars a) (lowChars b) h) hay

/-- Models `pattern.search(name)` as a Boolean, for a case-insensitive alternation
of the given alternatives. -/
def patSearch (alts : List PatAlt) (name : String) : Bool :=
  alts.any (altMatch (lowChars name))

/-! ### Decimal rendering of naturals

Python renders the duplicate-suffix counter and the millisecond latency
with `f"...{n}..."`, i.e. in decimal.  The fuel-indexed form keeps the
function kernel-reducible. -/

/-- Least-significant-digit-first decimal digits; `fuel > n` suffices. -/
def lsbCore : Nat → Nat → List Char
  | 0, _ => []
  | fuel + 1, n =>
    if n < 10 then [Char.ofNat (48 + n)]
    else Char.ofNat (48 + n % 10) :: lsbCore fuel (n / 10)

/-- Decimal representation of a natural number, as a Python f-string
renders an `int`. -/
def natRepr (n : Nat) : String := ⟨(lsbCore (n + 1) n).reverse⟩

/-! ### The data model

A raw descriptor is a YAML mapping.  Only the keys the pipeline inspects
are modelled: `name` (its value already passed through `str`), `type`
(only its presence is ever tested), `server`, and `port`; all further
keys pass through every stage untouched and carry no pipeline content.
A non-mapping entry is `isDict = false`. -/

/-- The value found under the `port` key: absent, an integer, a string, or
some other value on which Python's `int()` raises (`other true` is a
truthy such value, e.g. a list; `other false` a falsy one, e.g. `None`). -/
inductive PortField where
  | missing
  | intVal (n : Int)
  | strVal (s : String)
  | other (truthy : Bool)
deriving DecidableEq

structure RawProxy where
  isDict : Bool
  name? : Option String
  hasType : Bool
  server? : Option String
  port : PortField
deriving DecidableEq

/-- Models `proxy.get("name", "")`. -/
def pname (p : RawProxy) : String := p.name?.getD ""

/-- Models `proxy["name"] = n` (the entry keeps all its other fields). -/
def setName (p : RawProxy) (n : String) : RawProxy :=
  { p with name? := some n }

/-! ### Node Normalizer — `deduplicate_proxies` (lines 164–194) -/

/-- The validity screen: the entry is a mapping and has the `name`, `type`
and `server` keys. -/
def validEntry (p : RawProxy) : Bool :=
  p.isDict && p.name?.isSome && p.hasType && p.server?.isSome

/-- The loop of `deduplicate_proxies` with the per-name occurrence counter
`seen_names` (a dictionary: here a function to `Option Nat`). -/
def dedupGo (seen : String → Option Nat) : List RawProxy → List RawProxy
  | [] => []
  | p :: ps =>
    if validEntry p then
      let n := pyStrip (p.name?.getD "")
      if n = "" then dedupGo seen ps
      else
        match seen n with
        | some k => setName p (n ++ "_" ++ natRepr (k + 1)) ::
            dedupGo (fun m => if m = n then some (k + 1) else seen m) ps
        | none => setName p n ::
            dedupGo (fun m => if m = n then some 0 else seen m) ps
    else dedupGo seen ps

def deduplicate_proxies (l : List RawProxy) : List RawProxy :=
  dedupGo (fun _ => none) l

/-! ### Region Filter — `filter_blocked_regions` (lines 197–215) -/

/-- The `BLOCKED_REGION_PATTERN` alternation (source lines 56–59). -/
def BLOCKED_REGION_PATTERN : List PatAlt :=
  [.lit "🇨🇳", .lit "🇭🇰", .lit "🇹🇼", .lit "🇻🇳",
   .lit "CN", .lit "HK", .lit "TW", .lit "VN",
   .lit "中国", .lit "香港", .lit "台湾", .lit "越南",
   .lit "China", .gap "Hong" "Kong", .lit "Taiwan", .lit "Vietnam",
   .lit "回国"]

def blockedName (n : String) : Bool := patSearch BLOCKED_REGION_PATTERN n

/-- The filter loop: a node whose `proxy.get("name", "")` matches the
blocked pattern is dropped, every other node is appended in order. -/
def filter_blocked_regions (l : List RawProxy) : List RawProxy :=
  l.filter (fun p => !(blockedName (pname p)))

/-! ### Reachability Prober — `test_single_proxy` (lines 218–249) and
`test_proxies_latency` (lines 252–308) -/

/-- Python truthiness of the value of `proxy.get("port", 0)`. -/
def portTruthy : PortField → Bool
  | .missing => false
  | .intVal n => n != 0
  | .strVal s => s != ""
  | .other t => t

/-- Predicate `allDigits l`: every character is an ASCII decimal digit. -/
def allDigits : List Char → Bool
  | [] => true
  | c :: cs => (decide (48 ≤ c.toNat) && decide (c.toNat ≤ 57)) && allDigits cs

def digitsToNat : List Char → Nat → Nat
  | [], acc => acc
  | c :: cs, acc => digitsToNat cs (acc * 10 + (c.toNat - 48))

/-- Python `int` on a string: optional surrounding whitespace, an optional
sign, then one or more decimal digits (digit-group underscores are not
modelled).  `none` models the raised `ValueError`. -/
def pyStrToInt (s : String) : Option Int :=
  match (pyStrip s).data with
  | '-' :: rest =>
    if rest.isEmpty then none
    else if allDigits rest then some (-(digitsToNat rest 0 : Int)) else none
  | '+' :: rest =>
    if rest.isEmpty then none
    else if allDigits rest then some ((digitsToNat rest 0 : Int)) else none
  | t =>
    if t.isEmpty then none
    else if allDigits t then some ((digitsToNat t 0 : Int)) else none

/-- Python `int(port)`: `none` models `ValueError`/`TypeError`. -/
def portToInt : PortField → Option Int
  | .missing => some 0
  | .intVal n => some n
  | .strVal s => pyStrToInt s
  | .other _ => none

/-- The network: `net server port = some t` is a TCP connect that succeeded
with measured latency `t` tenths of a millisecond (the source stores
`round(ms, 1)`); `none` is a timeout or socket error. -/
def Net : Type := String → Int → Option Nat

/-- Probe `test_single_proxy`: guard on missing/falsy `server` and `port`, then
`int(port)`, then the probe.  It returns the node with `some` latency or
`none` for an unreachable node; the guards never consult the network. -/
def test_single_proxy (net : Net) (p : RawProxy) : RawProxy × Option Nat :=
  let server := p.server?.getD ""
  if server = "" then (p, none)
  else if !(portTruthy p.port) then (p, none)
  else
    match portToInt p.port with
    | none => (p, none)
    | some q => (p, net server q)

/-- The survivors paired with their latencies, in the order the probe
futures completed: `comp` is the completion order chosen by the scheduler,
a permutation of the submitted list. -/
def aliveOf (net : Net) (comp : List RawProxy) : List (RawProxy × Nat) :=
  comp.filterMap (fun p =>
    match test_single_proxy net p with
    | (q, some t) => some (q, t)
    | (_, none) => none)

/-- Stable insertion step for the latency sort: a new element goes before
every element of latency greater than or equal to its own that it meets. -/
def insLat (x : RawProxy × Nat) : List (RawProxy × Nat) → List (RawProxy × Nat)
  | [] => [x]
  | y :: ys => if y.2 < x.2 then y :: insLat x ys else x :: y :: ys

/-- Models `alive_proxies.sort(key=lambda x: x[1])`: Python's list sort is stable
and ascending; a stable ascending sort of a list is unique, and insertion
sort computes it. -/
def sortByLat : List (RawProxy × Nat) → List (RawProxy × Nat)
  | [] => []
  | x :: xs => insLat x (sortByLat xs)

/-- The renaming loop after the sort:
`proxy["name"] = f"[{int(latency)}ms] {proxy['name']}"`.  Python's `int`
truncates, so `t` tenths of a millisecond prints as `t / 10` milliseconds.
`none` models the `KeyError` on a node without a `name` key. -/
def renameAlive : List (RawProxy × Nat) → Option (List RawProxy)
  | [] => some []
  | (p, t) :: rest =>
    match p.name? with
    | none => none
    | some n =>
      match renameAlive rest with
      | none => none
      | some rs => some (setName p ("[" ++ natRepr (t / 10) ++ "ms] " ++ n) :: rs)

/-- Prober `test_proxies_latency` for a given completion order: collect the
survivors as the futures complete, sort stably by latency, then rewrite
the names of the survivors. -/
def test_proxies_latency (net : Net) (comp : List RawProxy) : Option (List RawProxy) :=
  renameAlive (sortByLat (aliveOf net comp))

/-! ### Region Classifier — `classify_by_region` (lines 311–328) -/

/-- The `REGION_MAP` catalog (source lines 63–76): the fixed ordered catalog of
(pattern, label) pairs. -/
def REGION_MAP : List (List PatAlt × String) :=
  [([.lit "🇯🇵", .lit "JP", .lit "日本", .lit "Japan", .lit "东京", .lit "大阪"], "🇯🇵 日本"),
   ([.lit "🇺🇸", .lit "US", .lit "美国", .gap "United" "States", .lit "洛杉矶", .lit "硅谷",
     .lit "纽约", .lit "达拉斯", .lit "凤凰城", .lit "西雅图"], "🇺🇸 美国"),
   ([.lit "🇸🇬", .lit "SG", .lit "新加坡", .lit "Singapore", .lit "狮城"], "🇸🇬 新加坡"),
   ([.lit "🇰🇷", .lit "KR", .lit "韩国", .lit "Korea", .lit "首尔"], "🇰🇷 韩国"),
   ([.lit "🇬🇧", .lit "UK", .lit "GB", .lit "英国", .gap "United" "Kingdom", .lit "伦敦"], "🇬🇧 英国"),
   ([.lit "🇩🇪", .lit "DE", .lit "德国", .lit "Germany", .lit "法兰克福"], "🇩🇪 德国"),
   ([.lit "🇫🇷", .lit "FR", .lit "法国", .lit "France", .lit "巴黎"], "🇫🇷 法国"),
   ([.lit "🇷🇺", .lit "RU", .lit "俄罗斯", .lit "Russia", .lit "莫斯科"], "🇷🇺 俄罗斯"),
   ([.lit "🇨🇦", .lit "CA", .lit "加拿大", .lit "Canada"], "🇨🇦 加拿大"),
   ([.lit "🇦🇺", .lit "AU", .lit "澳大利亚", .lit "Australia", .lit "悉尼"], "🇦🇺 澳大利亚"),
   ([.lit "🇮🇳", .lit "IN", .lit "印度", .lit "India", .lit "孟买"], "🇮🇳 印度"),
   ([.lit "🇧🇷", .lit "BR", .lit "巴西", .lit "Brazil"], "🇧🇷 巴西")]

/-- The label list `ALL_REGION_NAMES` (source line 79). -/
def ALL_REGION_NAMES : List String := REGION_MAP.map (fun pr => pr.2)

/-- The inner loop with `break`: the label of the first catalog pattern
matching the name, if any.  Parameterised by the catalog. -/
def firstRegionIn : List (List PatAlt × String) → String → Option String
  | [], _ => none
  | (pat, lbl) :: rest, name =>
    if patSearch pat name then some lbl else firstRegionIn rest name

def firstRegion (name : String) : Option String := firstRegionIn REGION_MAP name

/-- Models `region_groups.setdefault(region_name, []).append(name)` on an ordered
dictionary kept as an association list in insertion order. -/
def odAdd : List (String × List String) → String → String → List (String × List String)
  | [], k, v => [(k, [v])]
  | (k', vs) :: rest, k, v =>
    if k' = k then (k', vs ++ [v]) :: rest else (k', vs) :: odAdd rest k v

/-- The classifier loop over the nodes, accumulating the ordered mapping;
`none` models the `KeyError` of `proxy["name"]` on a node without a name. -/
def classifyWith (catalog : List (List PatAlt × String))
    (acc : List (String × List String)) : List RawProxy → Option (List (String × List String))
  | [] => some acc
  | p :: ps =>
    match p.name? with
    | none => none
    | some n =>
      match firstRegionIn catalog n with
      | some lbl => classifyWith catalog (odAdd acc lbl n) ps
      | none => classifyWith catalog acc ps

def classify_by_region (l : List RawProxy) : Option (List (String × List String)) :=
  classifyWith REGION_MAP [] l

/-- Value lookup in the ordered mapping (empty list when the key is
absent). -/
def lookupG : List (String × List String) → String → List String
  | [], _ => []
  | (k, vs) :: rest, l => if k = l then vs else lookupG rest l

/-- Models `region_name in region_groups`. -/
def hasKey (g : List (String × List String)) (k : String) : Bool :=
  g.any (fun e => e.1 == k)

/-! ### Routing Config Assembler — `build_config` (lines 331–481),
`build_rules` (lines 484–595), and the driver `main` (lines 631–701) -/

/-- One entry of `proxy-groups`, restricted to the fields the claims are
about (`name`, `type`, `proxies`); the static `url`/`interval`/`tolerance`
scalars carry no pipeline content. -/
structure PGroup where
  gname : String
  gtype : String
  gproxies : List String
deriving DecidableEq

/-- The static rule list `build_rules`. -/
def build_rules : List String :=
  ["DOMAIN-SUFFIX,ads.google.com,⛔ 广告拦截",
   "DOMAIN-SUFFIX,adservice.google.com,⛔ 广告拦截",
   "DOMAIN-SUFFIX,googleadservices.com,⛔ 广告拦截",
   "DOMAIN-SUFFIX,doubleclick.net,⛔ 广告拦截",
   "DOMAIN-SUFFIX,ad.com,⛔ 广告拦截",
   "DOMAIN-SUFFIX,adnxs.com,⛔ 广告拦截",
   "DOMAIN-SUFFIX,adsrvr.org,⛔ 广告拦截",
   "DOMAIN-SUFFIX,pgdt.ugdtimg.com,⛔ 广告拦截",
   "DOMAIN-KEYWORD,adservice,⛔ 广告拦截",
   "DOMAIN-KEYWORD,tracking,⛔ 广告拦截",
   "DOMAIN-SUFFIX,malware-site.example,🚨 病毒网站",
   "DOMAIN-SUFFIX,cn,DIRECT",
   "DOMAIN-SUFFIX,baidu.com,DIRECT",
   "DOMAIN-SUFFIX,qq.com,DIRECT",
   "DOMAIN-SUFFIX,taobao.com,DIRECT",
   "DOMAIN-SUFFIX,tmall.com,DIRECT",
   "DOMAIN-SUFFIX,jd.com,DIRECT",
   "DOMAIN-SUFFIX,alipay.com,DIRECT",
   "DOMAIN-SUFFIX,163.com,DIRECT",
   "DOMAIN-SUFFIX,126.com,DIRECT",
   "DOMAIN-SUFFIX,weibo.com,DIRECT",
   "DOMAIN-SUFFIX,bilibili.com,DIRECT",
   "DOMAIN-SUFFIX,zhihu.com,DIRECT",
   "DOMAIN-SUFFIX,douyin.com,DIRECT",
   "DOMAIN-SUFFIX,toutiao.com,DIRECT",
   "DOMAIN-SUFFIX,csdn.net,DIRECT",
   "DOMAIN-SUFFIX,aliyun.com,DIRECT",
   "DOMAIN-SUFFIX,aliyuncs.com,DIRECT",
   "DOMAIN-SUFFIX,tencentcloud.com,DIRECT",
   "DOMAIN-SUFFIX,meituan.com,DIRECT",
   "DOMAIN-SUFFIX,dianping.com,DIRECT",
   "DOMAIN-SUFFIX,mi.com,DIRECT",
   "DOMAIN-SUFFIX,xiaomi.com,DIRECT",
   "DOMAIN-SUFFIX,google.com,🚀 选择代理",
   "DOMAIN-SUFFIX,google.co.jp,🚀 选择代理",
   "DOMAIN-SUFFIX,googleapis.com,🚀 选择代理",
   "DOMAIN-SUFFIX,gstatic.com,🚀 选择代理",
   "DOMAIN-SUFFIX,youtube.com,🚀 选择代理",
   "DOMAIN-SUFFIX,ytimg.com,🚀 选择代理",
   "DOMAIN-SUFFIX,googlevideo.com,🚀 选择代理",
   "DOMAIN-SUFFIX,gmail.com,🚀 选择代理",
   "DOMAIN-SUFFIX,github.com,🚀 选择代理",
   "DOMAIN-SUFFIX,githubusercontent.com,🚀 选择代理",
   "DOMAIN-SUFFIX,twitter.com,🚀 选择代理",
   "DOMAIN-SUFFIX,x.com,🚀 选择代理",
   "DOMAIN-SUFFIX,twimg.com,🚀 选择代理",
   "DOMAIN-SUFFIX,facebook.com,🚀 选择代理",
   "DOMAIN-SUFFIX,fbcdn.net,🚀 选择代理",
   "DOMAIN-SUFFIX,instagram.com,🚀 选择代理",
   "DOMAIN-SUFFIX,whatsapp.com,🚀 选择代理",
   "DOMAIN-SUFFIX,telegram.org,🚀 选择代理",
   "DOMAIN-SUFFIX,t.me,🚀 选择代理",
   "DOMAIN-SUFFIX,wikipedia.org,🚀 选择代理",
   "DOMAIN-SUFFIX,reddit.com,🚀 选择代理",
   "DOMAIN-SUFFIX,netflix.com,🚀 选择代理",
   "DOMAIN-SUFFIX,nflxvideo.net,🚀 选择代理",
   "DOMAIN-SUFFIX,spotify.com,🚀 选择代理",
   "DOMAIN-SUFFIX,discord.com,🚀 选择代理",
   "DOMAIN-SUFFIX,discordapp.com,🚀 选择代理",
   "DOMAIN-SUFFIX,openai.com,🚀 选择代理",
   "DOMAIN-SUFFIX,claude.ai,🚀 选择代理",
   "DOMAIN-SUFFIX,anthropic.com,🚀 选择代理",
   "DOMAIN-SUFFIX,chatgpt.com,🚀 选择代理",
   "DOMAIN-SUFFIX,amazonaws.com,🚀 选择代理",
   "DOMAIN-SUFFIX,cloudflare.com,🚀 选择代理",
   "DOMAIN-SUFFIX,microsoft.com,🚀 选择代理",
   "DOMAIN-SUFFIX,apple.com,🚀 选择代理",
   "DOMAIN-SUFFIX,icloud.com,🚀 选择代理",
   "DOMAIN-SUFFIX,amazon.com,🚀 选择代理",
   "DOMAIN-SUFFIX,twitch.tv,🚀 选择代理",
   "DOMAIN-SUFFIX,steam.com,🚀 选择代理",
   "DOMAIN-SUFFIX,steampowered.com,🚀 选择代理",
   "DOMAIN-SUFFIX,steamcommunity.com,🚀 选择代理",
   "DOMAIN-SUFFIX,pixiv.net,🚀 选择代理",
   "DOMAIN-SUFFIX,pximg.net,🚀 选择代理",
   "DOMAIN-SUFFIX,docker.com,🚀 选择代理",
   "DOMAIN-SUFFIX,docker.io,🚀 选择代理",
   "DOMAIN-SUFFIX,npmjs.org,🚀 选择代理",
   "DOMAIN-SUFFIX,pypi.org,🚀 选择代理",
   "DOMAIN-SUFFIX,huggingface.co,🚀 选择代理",
   "DOMAIN-SUFFIX,medium.com,🚀 选择代理",
   "DOMAIN-SUFFIX,stackoverflow.com,🚀 选择代理",
   "DOMAIN-SUFFIX,hulu.com,🌐 突破锁区",
   "DOMAIN-SUFFIX,hbo.com,🌐 突破锁区",
   "DOMAIN-SUFFIX,hbomax.com,🌐 突破锁区",
   "DOMAIN-SUFFIX,disneyplus.com,🌐 突破锁区",
   "DOMAIN-SUFFIX,disney-plus.net,🌐 突破锁区",
   "DOMAIN-SUFFIX,primevideo.com,🌐 突破锁区",
   "DOMAIN-SUFFIX,dazn.com,🌐 突破锁区",
   "GEOIP,CN,❓ 疑似国内",
   "MATCH,🐟 漏网之鱼"]

/-- The assembled configuration, restricted to the claim-relevant fields
(node list, `proxy-groups`, `rules`); the remaining static scalars (dns,
sniffer, ports, …) carry no pipeline content. -/
structure MetaConfig where
  proxies : List RawProxy
  proxy_groups : List PGroup
  rules : List String
deriving DecidableEq

/-- The ten non-region groups (`proxy_groups` items 1–10 of the source),
given the full name list and the active region labels. -/
def fixedGroups (all_names : List String) (active : List String) : List PGroup :=
  [⟨"🚀 选择代理", "select", ["♻ 自动选择", "🔰 延迟最低", "✅ 手动选择", "🗺️ 选择地区"]⟩,
   ⟨"♻ 自动选择", "fallback", all_names⟩,
   ⟨"🔰 延迟最低", "url-test", all_names⟩,
   ⟨"✅ 手动选择", "select", all_names⟩,
   ⟨"🌐 突破锁区", "select", ["DIRECT", "🚀 选择代理"]⟩,
   ⟨"❓ 疑似国内", "select", ["DIRECT", "🚀 选择代理", "REJECT"]⟩,
   ⟨"🐟 漏网之鱼", "select", ["DIRECT", "🚀 选择代理"]⟩,
   ⟨"🚨 病毒网站", "select", ["REJECT", "DIRECT"]⟩,
   ⟨"⛔ 广告拦截", "select", ["REJECT", "DIRECT", "🚀 选择代理"]⟩,
   ⟨"🗺️ 选择地区", "select", if active.isEmpty then ["REJECT"] else active⟩]

/-- Assembler `build_config`: collect all node names, classify by region, then emit
the 10 fixed groups followed by one group per catalog label — the label's
members when it has any, `["REJECT"]` otherwise.  `none` models the
`KeyError` on a node without a `name` key. -/
def build_config (ps : List RawProxy) : Option MetaConfig :=
  match ps.mapM (fun p => p.name?) with
  | none => none
  | some all_names =>
    match classify_by_region ps with
    | none => none
    | some region_groups =>
      let active := ALL_REGION_NAMES.filter (fun r => hasKey region_groups r)
      let regionSub : List PGroup := ALL_REGION_NAMES.map (fun r =>
        if hasKey region_groups r then ⟨r, "select", lookupG region_groups r⟩
        else ⟨r, "select", ["REJECT"]⟩)
      some ⟨ps, fixedGroups all_names active ++ regionSub, build_rules⟩

/-- The driver `main` from the point where the raw descriptors have been
fetched (lines 664–688): the emptiness checks between the stages, with
`none` for every `sys.exit(1)` path (and for an uncaught exception).
`sched` chooses the completion order of the probe futures; the theorems
constrain it to a permutation of its argument. -/
def runPipeline (raw : List RawProxy) (net : Net)
    (sched : List RawProxy → List RawProxy) : Option MetaConfig :=
  if raw.isEmpty then none
  else
    let d := deduplicate_proxies raw
    let f := filter_blocked_regions d
    if f.isEmpty then none
    else
      match test_proxies_latency net (sched f) with
      | none => none
      | some t => if t.isEmpty then none else build_config t

/-! ## Lemmas -/

/-! ### Decimal rendering -/

theorem digitChar_toNat (k : Nat) (h : k < 10) : (Char.ofNat (48 + k)).toNat = 48 + k := by
  interval_cases k <;> rfl

theorem mem_lsbCore {f n : Nat} (h : n < f) {c : Char} (hc : c ∈ lsbCore f n) :
    ∃ k, k < 10 ∧ c = Char.ofNat (48 + k) := by
  induction f generalizing n with
  | zero => omega
  | succ f ih =>
    rw [lsbCore] at hc
    split at hc
    · next h10 =>
      simp only [List.mem_singleton] at hc
      exact ⟨n, h10, hc⟩
    · next h10 =>
      rcases List.mem_cons.mp hc with h1 | h2
      · exact ⟨n % 10, Nat.mod_lt _ (by omega), h1⟩
      · exact ih (by omega) h2

/-- Decoding least-significant-first digit characters. -/
def valLsb : List Char → Nat
  | [] => 0
  | c :: cs => (c.toNat - 48) + 10 * valLsb cs

theorem valLsb_lsbCore {f n : Nat} (h : n < f) : valLsb (lsbCore f n) = n := by
  induction f generalizing n with
  | zero => omega
  | succ f ih =>
    rw [lsbCore]
    split
    · next h10 => simp [valLsb, digitChar_toNat n h10]
    · next h10 =>
      have hm := digitChar_toNat (n % 10) (Nat.mod_lt _ (by omega))
      have hd := ih (show n / 10 < f by omega)
      simp [valLsb, hm, hd]
      omega

theorem natRepr_injective {m n : Nat} (h : natRepr m = natRepr n) : m = n := by
  have hd : (lsbCore (m + 1) m).reverse = (lsbCore (n + 1) n).reverse :=
    congrArg String.data h
  have h2 : lsbCore (m + 1) m = lsbCore (n + 1) n := by
    have := congrArg List.reverse hd
    simpa using this
  have hv := valLsb_lsbCore (Nat.lt_succ_self m)
  rw [h2, valLsb_lsbCore (Nat.lt_succ_self n)] at hv
  omega

theorem underscore_not_mem_natRepr (n : Nat) : '_' ∉ (natRepr n).data := by
  intro hmem
  have hm : '_' ∈ lsbCore (n + 1) n := by
    simpa [natRepr] using hmem
  obtain ⟨k, hk, he⟩ := mem_lsbCore (Nat.lt_succ_self n) hm
  have ht := digitChar_toNat k hk
  rw [← he] at ht
  have h95 : ('_' : Char).toNat = 95 := rfl
  omega

/-! ### Splitting a list at a distinguished element -/

theorem append_cons_inj {α : Type} {c : α} :
    ∀ {l₁ l₂ r₁ r₂ : List α}, c ∉ l₁ → c ∉ l₂ → l₁ ++ c :: r₁ = l₂ ++ c :: r₂ →
      l₁ = l₂ ∧ r₁ = r₂ := by
  intro l₁
  induction l₁ with
  | nil =>
    intro l₂ r₁ r₂ _ h2 he
    cases l₂ with
    | nil => simpa using he
    | cons b bs =>
      simp only [List.nil_append, List.cons_append, List.cons.injEq] at he
      exact absurd (by rw [he.1]; exact List.mem_cons_self b bs) h2
  | cons a as ih =>
    intro l₂ r₁ r₂ h1 h2 he
    cases l₂ with
    | nil =>
      simp only [List.cons_append, List.nil_append, List.cons.injEq] at he
      exact absurd (by rw [← he.1]; exact List.mem_cons_self a as) h1
    | cons b bs =>
      simp only [List.cons_append, List.cons.injEq] at he
      have h1' : c ∉ as := fun hx => h1 (List.mem_cons_of_mem a hx)
      have h2' : c ∉ bs := fun hx => h2 (List.mem_cons_of_mem b hx)
      obtain ⟨hab, hrest⟩ := he
      obtain ⟨hl, hr⟩ := ih h1' h2' hrest
      exact ⟨by rw [hab, hl], hr⟩

/-! ### The duplicate-suffix form `name_k` -/

/-- The renamed form produced on a name collision. -/
def sfx (b : String) (i : Nat) : String := b ++ "_" ++ natRepr i

theorem sfx_data (b : String) (i : Nat) :
    (sfx b i).data = b.data ++ '_' :: (natRepr i).data := by
  show (b ++ "_" ++ natRepr i).data = _
  rw [String.data_append, String.data_append]
  simp

theorem underscore_mem_sfx (b : String) (i : Nat) : '_' ∈ (sfx b i).data := by
  rw [sfx_data]
  exact List.mem_append_right _ (List.mem_cons_self _ _)

theorem sfx_inj {b₁ b₂ : String} {i₁ i₂ : Nat} (h1 : '_' ∉ b₁.data) (h2 : '_' ∉ b₂.data)
    (he : sfx b₁ i₁ = sfx b₂ i₂) : b₁ = b₂ ∧ i₁ = i₂ := by
  have hd := congrArg String.data he
  rw [sfx_data, sfx_data] at hd
  obtain ⟨hb, hr⟩ := append_cons_inj h1 h2 hd
  exact ⟨String.ext hb, natRepr_injective (String.ext hr)⟩

/-! ### Uniqueness of deduplicated names

The state invariant: a name is "claimed" by the occurrence counter when it
is one of the (underscore-free) keys already emitted, or one of the
suffixed forms the counter has already handed out for such a key. -/

def Claimed (seen : String → Option Nat) (x : String) : Prop :=
  ('_' ∉ x.data ∧ seen x ≠ none) ∨
    ∃ b i k, '_' ∉ b.data ∧ seen b = some k ∧ 1 ≤ i ∧ i ≤ k ∧ x = sfx b i

theorem Claimed_mono {seen seen' : String → Option Nat}
    (h : ∀ b k, seen b = some k → ∃ k', seen' b = some k' ∧ k ≤ k') {x : String}
    (hx : Claimed seen x) : Claimed seen' x := by
  rcases hx with ⟨hu, hs⟩ | ⟨b, i, k, hb, hk, h1, h2, he⟩
  · rcases ho : seen x with _ | k
    · exact absurd ho hs
    · obtain ⟨k', hk', _⟩ := h x k ho
      exact Or.inl ⟨hu, by simp [hk']⟩
  · obtain ⟨k', hk', hle⟩ := h b k hk
    exact Or.inr ⟨b, i, k', hb, hk', h1, by omega, he⟩

theorem dedupGo_cons_invalid (seen : String → Option Nat) (p : RawProxy) (ps : List RawProxy)
    (h : ¬ validEntry p = true) : dedupGo seen (p :: ps) = dedupGo seen ps := by
  simp [dedupGo, h]

theorem dedupGo_cons_empty (seen : String → Option Nat) (p : RawProxy) (ps : List RawProxy)
    (h : validEntry p = true) (he : pyStrip (p.name?.getD "") = "") :
    dedupGo seen (p :: ps) = dedupGo seen ps := by
  simp [dedupGo, h, he]

theorem dedupGo_cons_fresh (seen : String → Option Nat) (p : RawProxy) (ps : List RawProxy)
    (h : validEntry p = true) (he : ¬ pyStrip (p.name?.getD "") = "")
    (hs : seen (pyStrip (p.name?.getD "")) = none) :
    dedupGo seen (p :: ps) = setName p (pyStrip (p.name?.getD "")) ::
      dedupGo (fun m => if m = pyStrip (p.name?.getD "") then some 0 else seen m) ps := by
  simp [dedupGo, h, he, hs]

theorem dedupGo_cons_repeat (seen : String → Option Nat) (p : RawProxy) (ps : List RawProxy)
    (k : Nat) (h : validEntry p = true) (he : ¬ pyStrip (p.name?.getD "") = "")
    (hs : seen (pyStrip (p.name?.getD "")) = some k) :
    dedupGo seen (p :: ps) = setName p (sfx (pyStrip (p.name?.getD "")) (k + 1)) ::
      dedupGo (fun m => if m = pyStrip (p.name?.getD "") then some (k + 1) else seen m) ps := by
  simp [dedupGo, h, he, hs, sfx]

theorem dedupGo_fresh_nodup :
    ∀ (ps : List RawProxy) (seen : String → Option Nat),
      (∀ p ∈ ps, '_' ∉ (pyStrip (pname p)).data) →
      (∀ b k, seen b = some k → '_' ∉ b.data) →
      (∀ x ∈ (dedupGo seen ps).map pname, ¬ Claimed seen x) ∧
        ((dedupGo seen ps).map pname).Nodup := by
  intro ps
  induction ps with
  | nil =>
    intro seen _ _
    simp [dedupGo]
  | cons p ps ih =>
    intro seen hin hwf
    have hin' : ∀ q ∈ ps, '_' ∉ (pyStrip (pname q)).data :=
      fun q hq => hin q (List.mem_cons_of_mem p hq)
    have hpn : '_' ∉ (pyStrip (p.name?.getD "")).data :=
      hin p (List.mem_cons_self p ps)
    by_cases hv : validEntry p = true
    · by_cases hne : pyStrip (p.name?.getD "") = ""
      · rw [dedupGo_cons_empty seen p ps hv hne]
        exact ih seen hin' hwf
      · rcases hs : seen (pyStrip (p.name?.getD "")) with _ | k
        · -- fresh name: emitted unchanged, counter set to 0
          rw [dedupGo_cons_fresh seen p ps hv hne hs]
          have hwf' : ∀ b k,
              (fun m => if m = pyStrip (p.name?.getD "") then some 0 else seen m) b = some k →
              '_' ∉ b.data := by
            intro b k hb
            simp only [] at hb
            by_cases hbn : b = pyStrip (p.name?.getD "")
            · rw [hbn]; exact hpn
            · rw [if_neg hbn] at hb; exact hwf b k hb
          obtain ⟨hfresh, hnodup⟩ := ih _ hin' hwf'
          have hmono : ∀ b k, seen b = some k →
              ∃ k', (fun m => if m = pyStrip (p.name?.getD "") then some 0 else seen m) b = some k'
                ∧ k ≤ k' := by
            intro b k hb
            by_cases hbn : b = pyStrip (p.name?.getD "")
            · rw [hbn] at hb; rw [hb] at hs; cases hs
            · exact ⟨k, by simp only []; rw [if_neg hbn]; exact hb, Nat.le_refl k⟩
          have hheadmem : Claimed
              (fun m => if m = pyStrip (p.name?.getD "") then some 0 else seen m)
              (pyStrip (p.name?.getD "")) :=
            Or.inl ⟨hpn, by simp⟩
          have hheadnotin : pyStrip (p.name?.getD "") ∉
              (dedupGo (fun m => if m = pyStrip (p.name?.getD "") then some 0 else seen m) ps).map pname :=
            fun hmem => hfresh _ hmem hheadmem
          constructor
          · intro x hx
            rw [List.map_cons] at hx
            rcases List.mem_cons.mp hx with hxh | hxt
            · have hxh' : x = pyStrip (p.name?.getD "") := hxh
              rw [hxh']
              rintro (⟨_, hcl⟩ | ⟨b, i, k, hb, hk, h1, h2, hform⟩)
              · exact hcl hs
              · exact absurd (hform ▸ hpn) (fun hc => hc (underscore_mem_sfx b i))
            · intro hcl
              exact hfresh x hxt (Claimed_mono hmono hcl)
          · rw [List.map_cons, List.nodup_cons]
            exact ⟨hheadnotin, hnodup⟩
        · -- repeat name: emitted with suffix, counter bumped
          rw [dedupGo_cons_repeat seen p ps k hv hne hs]
          have hwf' : ∀ b j,
              (fun m => if m = pyStrip (p.name?.getD "") then some (k + 1) else seen m) b = some j →
              '_' ∉ b.data := by
            intro b j hb
            simp only [] at hb
            by_cases hbn : b = pyStrip (p.name?.getD "")
            · rw [hbn]; exact hpn
            · rw [if_neg hbn] at hb; exact hwf b j hb
          obtain ⟨hfresh, hnodup⟩ := ih _ hin' hwf'
          have hmono : ∀ b j, seen b = some j →
              ∃ k', (fun m => if m = pyStrip (p.name?.getD "") then some (k + 1) else seen m) b = some k'
                ∧ j ≤ k' := by
            intro b j hb
            by_cases hbn : b = pyStrip (p.name?.getD "")
            · refine ⟨k + 1, by simp only []; rw [if_pos hbn], ?_⟩
              rw [hbn] at hb
              rw [hb] at hs
              have hjk : j = k := by injection hs
              omega
            · exact ⟨j, by simp only []; rw [if_neg hbn]; exact hb, Nat.le_refl j⟩
          have hheadmem : Claimed
              (fun m => if m = pyStrip (p.name?.getD "") then some (k + 1) else seen m)
              (sfx (pyStrip (p.name?.getD "")) (k + 1)) :=
            Or.inr ⟨pyStrip (p.name?.getD ""), k + 1, k + 1, hpn, by simp, by omega,
              Nat.le_refl _, rfl⟩
          have hheadnotin : sfx (pyStrip (p.name?.getD "")) (k + 1) ∉
              (dedupGo (fun m => if m = pyStrip (p.name?.getD "") then some (k + 1) else seen m) ps).map pname :=
            fun hmem => hfresh _ hmem hheadmem
          constructor
          · intro x hx
            rw [List.map_cons] at hx
            rcases List.mem_cons.mp hx with hxh | hxt
            · have hxh' : x = sfx (pyStrip (p.name?.getD "")) (k + 1) := hxh
              rw [hxh']
              rintro (⟨hu, _⟩ | ⟨b, i, j, hb, hj, h1, h2, hform⟩)
              · exact hu (underscore_mem_sfx _ _)
              · obtain ⟨hbn, hik⟩ := sfx_inj hb hpn hform.symm
                rw [hbn] at hj
                rw [hj] at hs
                have hjk : j = k := by injection hs
                omega
            · intro hcl
              exact hfresh x hxt (Claimed_mono hmono hcl)
          · rw [List.map_cons, List.nodup_cons]
            exact ⟨hheadnotin, hnodup⟩
    · rw [dedupGo_cons_invalid seen p ps hv]
      exact ih seen hin' hwf

/-- Normalizer uniqueness under the underscore-free proviso. -/
theorem dedup_names_nodup (l : List RawProxy)
    (h : ∀ p ∈ l, '_' ∉ (pyStrip (pname p)).data) :
    ((deduplicate_proxies l).map pname).Nodup :=
  (dedupGo_fresh_nodup l (fun _ => none) h (by intro b k hk; cases hk)).2

/-! ### The latency sort -/

theorem mem_insLat (x z : RawProxy × Nat) : ∀ (l : List (RawProxy × Nat)),
    z ∈ insLat x l ↔ z = x ∨ z ∈ l := by
  intro l
  induction l with
  | nil => simp [insLat]
  | cons y ys ih =>
    rw [insLat]
    split
    · rw [List.mem_cons, ih, List.mem_cons]
      tauto
    · rw [List.mem_cons, List.mem_cons]

theorem insLat_pairwise (x : RawProxy × Nat) :
    ∀ {l : List (RawProxy × Nat)}, l.Pairwise (fun a b => a.2 ≤ b.2) →
      (insLat x l).Pairwise (fun a b => a.2 ≤ b.2) := by
  intro l
  induction l with
  | nil => intro _; simp [insLat]
  | cons y ys ih =>
    intro hp
    rw [List.pairwise_cons] at hp
    obtain ⟨hy, hys⟩ := hp
    rw [insLat]
    split
    · next hlt =>
      rw [List.pairwise_cons]
      refine ⟨?_, ih hys⟩
      intro z hz
      rcases (mem_insLat x z ys).mp hz with rfl | hz'
      · exact Nat.le_of_lt hlt
      · exact hy z hz'
    · next hge =>
      rw [List.pairwise_cons]
      refine ⟨?_, List.pairwise_cons.mpr ⟨hy, hys⟩⟩
      intro z hz
      rcases List.mem_cons.mp hz with rfl | hz'
      · omega
      · exact Nat.le_trans (by omega) (hy z hz')

theorem sortByLat_pairwise : ∀ (l : List (RawProxy × Nat)),
    (sortByLat l).Pairwise (fun a b => a.2 ≤ b.2) := by
  intro l
  induction l with
  | nil => simp [sortByLat]
  | cons x xs ih =>
    rw [sortByLat]
    exact insLat_pairwise x ih

theorem filter_insLat (x : RawProxy × Nat) (t : Nat) :
    ∀ (l : List (RawProxy × Nat)),
      (insLat x l).filter (fun q => q.2 == t) =
        if x.2 = t then x :: l.filter (fun q => q.2 == t)
        else l.filter (fun q => q.2 == t) := by
  intro l
  induction l with
  | nil =>
    rw [insLat]
    by_cases hxt : x.2 = t
    · simp [List.filter_cons, hxt]
    · simp [List.filter_cons, hxt]
  | cons y ys ih =>
    rw [insLat]
    split
    · next hlt =>
      rw [List.filter_cons, ih]
      by_cases hxt : x.2 = t
      · have hyt : ¬ y.2 = t := by omega
        simp [hxt, hyt, List.filter_cons]
      · by_cases hyt : y.2 = t
        · simp [hxt, hyt, List.filter_cons]
        · simp [hxt, hyt, List.filter_cons]
    · next hge =>
      by_cases hxt : x.2 = t
      · simp [hxt, List.filter_cons]
      · simp [hxt, List.filter_cons]

theorem filter_sortByLat (t : Nat) : ∀ (l : List (RawProxy × Nat)),
    (sortByLat l).filter (fun q => q.2 == t) = l.filter (fun q => q.2 == t) := by
  intro l
  induction l with
  | nil => rfl
  | cons x xs ih =>
    rw [sortByLat, filter_insLat, List.filter_cons]
    by_cases hxt : x.2 = t
    · simp [hxt, ih]
    · simp [hxt, ih]

/-! ### The renaming pass -/

theorem renameAlive_eq_map : ∀ {l : List (RawProxy × Nat)} {r : List RawProxy},
    renameAlive l = some r →
    r = l.map (fun q => setName q.1 ("[" ++ natRepr (q.2 / 10) ++ "ms] " ++ pname q.1)) := by
  intro l
  induction l with
  | nil =>
    intro r h
    rw [renameAlive] at h
    injection h with h
    rw [← h]
    rfl
  | cons q qs ih =>
    intro r h
    obtain ⟨p, t⟩ := q
    rw [renameAlive] at h
    rcases hn : p.name? with _ | n
    · rw [hn] at h; cases h
    · rw [hn] at h
      rcases hr : renameAlive qs with _ | rs
      · rw [hr] at h; cases h
      · rw [hr] at h
        injection h with h
        rw [← h, List.map_cons]
        have hpn : pname p = n := by simp [pname, hn]
        rw [ih hr, hpn]

/-! ### The single probe -/

theorem test_single_fst (net : Net) (p : RawProxy) : (test_single_proxy net p).1 = p := by
  rw [test_single_proxy]
  split
  · rfl
  · split
    · rfl
    · split <;> rfl

theorem mem_aliveOf {net : Net} {comp : List RawProxy} {q : RawProxy × Nat}
    (h : q ∈ aliveOf net comp) :
    q.1 ∈ comp ∧ test_single_proxy net q.1 = (q.1, some q.2) := by
  rw [aliveOf] at h
  obtain ⟨p, hp, hmap⟩ := List.mem_filterMap.mp h
  rcases he : test_single_proxy net p with ⟨p', lat⟩
  have hp' : p' = p := by
    have hf := test_single_fst net p
    rw [he] at hf
    exact hf
  rw [he] at hmap
  cases lat with
  | none => simp at hmap
  | some t =>
    simp only [Option.some.injEq] at hmap
    rw [← hmap]
    exact ⟨by rw [hp']; exact hp, by rw [hp']; rw [hp'] at he; exact he⟩

/-! ### The classifier's ordered mapping -/

theorem lookupG_odAdd (k : String) (v : String) (l : String) :
    ∀ (g : List (String × List String)),
      lookupG (odAdd g k v) l = if l = k then lookupG g l ++ [v] else lookupG g l := by
  intro g
  induction g with
  | nil =>
    by_cases hlk : l = k
    · rw [hlk]
      simp [odAdd, lookupG]
    · have hkl : ¬ k = l := fun h => hlk h.symm
      rw [if_neg hlk]
      simp [odAdd, lookupG, hkl]
  | cons e rest ih =>
    obtain ⟨k', vs⟩ := e
    rw [odAdd]
    by_cases hk : k' = k
    · rw [if_pos hk, hk]
      by_cases hlk : l = k
      · rw [hlk]
        simp [lookupG]
      · have hkl : ¬ k = l := fun h => hlk h.symm
        rw [if_neg hlk]
        simp [lookupG, hkl]
    · rw [if_neg hk]
      by_cases hkl : k' = l
      · have hlk : ¬ l = k := fun h => hk (hkl.trans h)
        rw [if_neg hlk]
        simp [lookupG, hkl]
      · rw [lookupG, if_neg hkl, ih, lookupG, if_neg hkl]

theorem classifyWith_cons_noname (cat : List (List PatAlt × String))
    (acc : List (String × List String)) (p : RawProxy) (ps : List RawProxy)
    (hn : p.name? = none) : classifyWith cat acc (p :: ps) = none := by
  simp [classifyWith, hn]

theorem classifyWith_cons_skip (cat : List (List PatAlt × String))
    (acc : List (String × List String)) (p : RawProxy) (ps : List RawProxy) (n : String)
    (hn : p.name? = some n) (hf : firstRegionIn cat n = none) :
    classifyWith cat acc (p :: ps) = classifyWith cat acc ps := by
  simp [classifyWith, hn, hf]

theorem classifyWith_cons_hit (cat : List (List PatAlt × String))
    (acc : List (String × List String)) (p : RawProxy) (ps : List RawProxy)
    (n lbl : String) (hn : p.name? = some n) (hf : firstRegionIn cat n = some lbl) :
    classifyWith cat acc (p :: ps) = classifyWith cat (odAdd acc lbl n) ps := by
  simp [classifyWith, hn, hf]

theorem lookupG_classifyWith (cat : List (List PatAlt × String)) :
    ∀ (ps : List RawProxy) (acc g : List (String × List String)),
      classifyWith cat acc ps = some g →
      ∀ l x, x ∈ lookupG g l ↔ x ∈ lookupG acc l ∨
        ∃ p ∈ ps, p.name? = some x ∧ firstRegionIn cat x = some l := by
  intro ps
  induction ps with
  | nil =>
    intro acc g h l x
    rw [classifyWith] at h
    injection h with h
    rw [← h]
    simp
  | cons p ps ih =>
    intro acc g h l x
    rcases hn : p.name? with _ | n
    · rw [classifyWith_cons_noname cat acc p ps hn] at h; cases h
    · rcases hf : firstRegionIn cat n with _ | lbl
      · rw [classifyWith_cons_skip cat acc p ps n hn hf] at h
        rw [ih _ _ h l x]
        constructor
        · rintro (ha | ⟨q, hq, hqn, hqf⟩)
          · exact Or.inl ha
          · exact Or.inr ⟨q, List.mem_cons_of_mem p hq, hqn, hqf⟩
        · rintro (ha | ⟨q, hq, hqn, hqf⟩)
          · exact Or.inl ha
          · rcases List.mem_cons.mp hq with rfl | hq'
            · rw [hn] at hqn
              injection hqn with hqn
              rw [hqn] at hf
              rw [hf] at hqf
              cases hqf
            · exact Or.inr ⟨q, hq', hqn, hqf⟩
      · rw [classifyWith_cons_hit cat acc p ps n lbl hn hf] at h
        rw [ih _ _ h l x, lookupG_odAdd]
        by_cases hl : l = lbl
        · rw [if_pos hl]
          constructor
          · rintro (ha | ⟨q, hq, hqn, hqf⟩)
            · rcases List.mem_append.mp ha with ha' | hxv
              · exact Or.inl ha'
              · refine Or.inr ⟨p, List.mem_cons_self p ps, ?_, ?_⟩
                · rw [hn]
                  rw [List.mem_singleton] at hxv
                  rw [hxv]
                · rw [List.mem_singleton] at hxv
                  rw [hxv, hf, hl]
            · exact Or.inr ⟨q, List.mem_cons_of_mem p hq, hqn, hqf⟩
          · rintro (ha | ⟨q, hq, hqn, hqf⟩)
            · exact Or.inl (List.mem_append_left _ ha)
            · rcases List.mem_cons.mp hq with rfl | hq'
              · rw [hn] at hqn
                injection hqn with hqn
                exact Or.inl (List.mem_append_right _ (by rw [← hqn]; exact List.mem_singleton_self n))
              · exact Or.inr ⟨q, hq', hqn, hqf⟩
        · rw [if_neg hl]
          constructor
          · rintro (ha | ⟨q, hq, hqn, hqf⟩)
            · exact Or.inl ha
            · exact Or.inr ⟨q, List.mem_cons_of_mem p hq, hqn, hqf⟩
          · rintro (ha | ⟨q, hq, hqn, hqf⟩)
            · exact Or.inl ha
            · rcases List.mem_cons.mp hq with rfl | hq'
              · rw [hn] at hqn
                injection hqn with hqn
                rw [hqn] at hf
                rw [hf] at hqf
                injection hqf with hqf
                exact absurd hqf.symm hl
              · exact Or.inr ⟨q, hq', hqn, hqf⟩

/-! ### Insertion (first-encounter) order of the classifier's labels -/

/-- The sequence of labels hit by the nodes, in node order (one entry per
classified node). -/
def labelSeq (cat : List (List PatAlt × String)) (ps : List RawProxy) : List String :=
  ps.filterMap (fun p =>
    match p.name? with
    | some n => firstRegionIn cat n
    | none => none)

/-- First occurrences of a sequence, in order, skipping those in `seen`. -/
def firstKeysAux (seen : List String) : List String → List String
  | [] => []
  | k :: ks =>
    if k ∈ seen then firstKeysAux seen ks else k :: firstKeysAux (k :: seen) ks

theorem firstKeysAux_congr : ∀ (ls s₁ s₂ : List String),
    (∀ x, x ∈ s₁ ↔ x ∈ s₂) → firstKeysAux s₁ ls = firstKeysAux s₂ ls := by
  intro ls
  induction ls with
  | nil => intro s₁ s₂ _; rfl
  | cons k ks ih =>
    intro s₁ s₂ hmem
    rw [firstKeysAux, firstKeysAux]
    by_cases hk : k ∈ s₁
    · rw [if_pos hk, if_pos ((hmem k).mp hk)]
      exact ih s₁ s₂ hmem
    · rw [if_neg hk, if_neg (fun hc => hk ((hmem k).mpr hc))]
      congr 1
      apply ih
      intro x
      rw [List.mem_cons, List.mem_cons, hmem x]

theorem keys_odAdd (k : String) (v : String) : ∀ (g : List (String × List String)),
    (odAdd g k v).map Prod.fst =
      if k ∈ g.map Prod.fst then g.map Prod.fst else g.map Prod.fst ++ [k] := by
  intro g
  induction g with
  | nil => simp [odAdd]
  | cons e rest ih =>
    obtain ⟨k', vs⟩ := e
    rw [odAdd]
    by_cases hk : k' = k
    · rw [if_pos hk, hk]
      simp
    · rw [if_neg hk]
      have hkk : ¬ k = k' := fun h => hk h.symm
      simp only [List.map_cons, List.mem_cons]
      rw [ih]
      by_cases hmem : k ∈ rest.map Prod.fst
      · rw [if_pos hmem, if_pos (Or.inr hmem)]
      · rw [if_neg hmem, if_neg (by rintro (h | h); exact hkk h; exact hmem h)]
        simp

theorem keys_classifyWith (cat : List (List PatAlt × String)) :
    ∀ (ps : List RawProxy) (acc g : List (String × List String)),
      classifyWith cat acc ps = some g →
      g.map Prod.fst = acc.map Prod.fst ++
        firstKeysAux (acc.map Prod.fst) (labelSeq cat ps) := by
  intro ps
  induction ps with
  | nil =>
    intro acc g h
    rw [classifyWith] at h
    injection h with h
    rw [← h]
    simp [labelSeq, firstKeysAux]
  | cons p ps ih =>
    intro acc g h
    rcases hn : p.name? with _ | n
    · rw [classifyWith_cons_noname cat acc p ps hn] at h; cases h
    · rcases hf : firstRegionIn cat n with _ | lbl
      · rw [classifyWith_cons_skip cat acc p ps n hn hf] at h
        have hseq : labelSeq cat (p :: ps) = labelSeq cat ps := by
          simp [labelSeq, List.filterMap_cons, hn, hf]
        rw [hseq]
        exact ih acc g h
      · rw [classifyWith_cons_hit cat acc p ps n lbl hn hf] at h
        have hseq : labelSeq cat (p :: ps) = lbl :: labelSeq cat ps := by
          simp [labelSeq, List.filterMap_cons, hn, hf]
        rw [hseq, firstKeysAux]
        have hkeys := keys_odAdd lbl n acc
        by_cases hmem : lbl ∈ acc.map Prod.fst
        · rw [if_pos hmem]
          have := ih (odAdd acc lbl n) g h
          rw [hkeys, if_pos hmem] at this
          exact this
        · rw [if_neg hmem]
          have hih := ih (odAdd acc lbl n) g h
          rw [hkeys, if_neg hmem] at hih
          rw [hih]
          have hcg : firstKeysAux (acc.map Prod.fst ++ [lbl]) (labelSeq cat ps) =
              firstKeysAux (lbl :: acc.map Prod.fst) (labelSeq cat ps) := by
            apply firstKeysAux_congr
            intro x
            simp only [List.mem_append, List.mem_cons, List.not_mem_nil, or_false]
            tauto
          rw [hcg, List.append_assoc]
          rfl

/-! ### Every recorded label has a member -/

theorem odAdd_vals_ne (k : String) (v : String) :
    ∀ (g : List (String × List String)), (∀ e ∈ g, e.2 ≠ []) →
      ∀ e ∈ odAdd g k v, e.2 ≠ [] := by
  intro g
  induction g with
  | nil =>
    intro _ e he
    rw [odAdd] at he
    rcases List.mem_singleton.mp he with rfl
    simp
  | cons e0 rest ih =>
    intro hg e he
    obtain ⟨k', vs⟩ := e0
    rw [odAdd] at he
    by_cases hk : k' = k
    · rw [if_pos hk] at he
      rcases List.mem_cons.mp he with rfl | he'
      · simp
      · exact hg e (List.mem_cons_of_mem _ he')
    · rw [if_neg hk] at he
      rcases List.mem_cons.mp he with rfl | he'
      · exact hg _ (List.mem_cons_self _ _)
      · exact ih (fun x hx => hg x (List.mem_cons_of_mem _ hx)) e he'

theorem classifyWith_vals_ne (cat : List (List PatAlt × String)) :
    ∀ (ps : List RawProxy) (acc g : List (String × List String)),
      (∀ e ∈ acc, e.2 ≠ []) → classifyWith cat acc ps = some g →
      ∀ e ∈ g, e.2 ≠ [] := by
  intro ps
  induction ps with
  | nil =>
    intro acc g hacc h
    rw [classifyWith] at h
    injection h with h
    rw [← h]
    exact hacc
  | cons p ps ih =>
    intro acc g hacc h
    rcases hn : p.name? with _ | n
    · rw [classifyWith_cons_noname cat acc p ps hn] at h; cases h
    · rcases hf : firstRegionIn cat n with _ | lbl
      · rw [classifyWith_cons_skip cat acc p ps n hn hf] at h
        exact ih acc g hacc h
      · rw [classifyWith_cons_hit cat acc p ps n lbl hn hf] at h
        exact ih (odAdd acc lbl n) g (odAdd_vals_ne lbl n acc hacc) h

theorem mem_keys_iff_lookupG_ne : ∀ (g : List (String × List String)),
    (∀ e ∈ g, e.2 ≠ []) → ∀ l, l ∈ g.map Prod.fst ↔ lookupG g l ≠ [] := by
  intro g
  induction g with
  | nil => intro _ l; simp [lookupG]
  | cons e rest ih =>
    intro hg l
    obtain ⟨k, vs⟩ := e
    rw [lookupG]
    by_cases hkl : k = l
    · rw [if_pos hkl]
      constructor
      · intro _; exact hg (k, vs) (List.mem_cons_self _ _)
      · intro _; rw [List.map_cons, List.mem_cons]; exact Or.inl hkl.symm
    · rw [if_neg hkl]
      rw [List.map_cons, List.mem_cons]
      rw [ih (fun x hx => hg x (List.mem_cons_of_mem _ hx)) l]
      constructor
      · rintro (h | h)
        · exact absurd h.symm hkl
        · exact h
      · exact Or.inr

/-! ### The Normalizer and Filter fix already-clean input -/

theorem setName_self {p : RawProxy} {n : String} (h : p.name? = some n) :
    setName p n = p := by
  obtain ⟨d, nm, t, s, po⟩ := p
  simp only [setName]
  simp only [RawProxy.mk.injEq, and_true, true_and]
  simp at h
  rw [h]

theorem dedupGo_eq_self : ∀ (ps : List RawProxy) (seen : String → Option Nat),
    (∀ p ∈ ps, validEntry p = true) →
    (∀ p ∈ ps, pyStrip (pname p) = pname p) →
    (∀ p ∈ ps, pname p ≠ "") →
    ((ps.map pname).Nodup) →
    (∀ p ∈ ps, seen (pname p) = none) →
    dedupGo seen ps = ps := by
  intro ps
  induction ps with
  | nil => intro seen _ _ _ _ _; rfl
  | cons p ps ih =>
    intro seen hval htrim hne hnd hseen
    have hp : p ∈ p :: ps := List.mem_cons_self p ps
    have hv := hval p hp
    have ht : pyStrip (p.name?.getD "") = pname p := htrim p hp
    have hne' : ¬ pyStrip (p.name?.getD "") = "" := by rw [ht]; exact hne p hp
    have hs : seen (pyStrip (p.name?.getD "")) = none := by rw [ht]; exact hseen p hp
    rw [dedupGo_cons_fresh seen p ps hv hne' hs]
    have hsome : p.name?.isSome = true := by
      rw [validEntry] at hv
      simp only [Bool.and_eq_true] at hv
      exact hv.1.1.2
    obtain ⟨n0, hn0⟩ := Option.isSome_iff_exists.mp hsome
    have hpn0 : pname p = n0 := by simp [pname, hn0]
    rw [List.map_cons, List.nodup_cons] at hnd
    congr 1
    · rw [ht, hpn0]
      exact setName_self hn0
    · apply ih
      · exact fun q hq => hval q (List.mem_cons_of_mem p hq)
      · exact fun q hq => htrim q (List.mem_cons_of_mem p hq)
      · exact fun q hq => hne q (List.mem_cons_of_mem p hq)
      · exact hnd.2
      · intro q hq
        have hqp : pname q ≠ pyStrip (p.name?.getD "") := by
          rw [ht]
          intro hc
          exact hnd.1 (hc ▸ List.mem_map_of_mem pname hq)
        rw [if_neg hqp]
        exact hseen q (List.mem_cons_of_mem p hq)

theorem dedup_eq_self (ps : List RawProxy)
    (hval : ∀ p ∈ ps, validEntry p = true)
    (htrim : ∀ p ∈ ps, pyStrip (pname p) = pname p)
    (hne : ∀ p ∈ ps, pname p ≠ "")
    (hnd : (ps.map pname).Nodup) :
    deduplicate_proxies ps = ps :=
  dedupGo_eq_self ps (fun _ => none) hval htrim hne hnd (fun _ _ => rfl)

theorem filterB_eq_self (ps : List RawProxy)
    (h : ∀ p ∈ ps, blockedName (pname p) = false) :
    filter_blocked_regions ps = ps := by
  rw [filter_blocked_regions, List.filter_eq_self]
  intro p hp
  rw [h p hp]
  rfl

/-! ## The claims

Concrete fixtures used by witnesses and counterexamples. -/

/-- A well-formed sample descriptor: a mapping with `name`, `type`,
`server` and an integer port. -/
def mkNode (n : String) (srv : String) : RawProxy :=
  ⟨true, some n, true, some srv, .intVal 443⟩

/-- A network where every connect succeeds with the same latency
(in tenths of a millisecond). -/
def netConst (t : Nat) : Net := fun _ _ => some t

/-- The input of the C9 counterexample: three pairwise-distinct raw names
(one of them untrimmed) that collide after stripping and suffixing. -/
def xsC9 : List RawProxy :=
  [mkNode "JP x" "s", mkNode " JP x" "s", mkNode "JP x_1" "s"]

/-- Claim C1, counterexample: on input names `A`, `A`, `A_1` (all entries
well-formed), `deduplicate_proxies` emits the name `A_1` twice — the
suffixed rename of the second `A` is never recorded in `seen_names`, so the
literal input name `A_1` collides with it.  The output name sequence is not
duplicate-free, refuting the claim as stated. -/
theorem claim_C1_counterexample :
    (deduplicate_proxies [mkNode "A" "s", mkNode "A" "s", mkNode "A_1" "s"]).map pname =
      ["A", "A_1", "A_1"] ∧
    ¬ (["A", "A_1", "A_1"] : List String).Nodup :=
  ⟨rfl, by decide⟩

/-- Claim C1 (amended): for every input sequence in which no stripped name
contains an underscore, the sequence returned by `deduplicate_proxies`
contains no two nodes with equal `name`.  (The underscore proviso is
exactly what the counterexample `A`, `A`, `A_1` violates: a literal input
name of the suffixed form can collide with a generated rename.) -/
theorem claim_C1 (l : List RawProxy)
    (h : ∀ p ∈ l, '_' ∉ (pyStrip (pname p)).data) :
    ((deduplicate_proxies l).map pname).Nodup :=
  dedup_names_nodup l h

/-- Claim C1, witness: the amended theorem applied to the input names
`A`, `B`, `A`, whose deduplication yields the duplicate-free `A`, `B`, `A_1`. -/
theorem claim_C1_witness :
    (∀ p ∈ [mkNode "A" "s", mkNode "B" "s", mkNode "A" "s"],
      '_' ∉ (pyStrip (pname p)).data) ∧
    ((deduplicate_proxies [mkNode "A" "s", mkNode "B" "s", mkNode "A" "s"]).map pname).Nodup :=
  ⟨by decide, claim_C1 _ (by decide)⟩

/-- Claim C2, counterexample: two nodes `A`, `B` (input order `[A, B]`)
measure the identical latency 50.0 ms, and the probe futures complete in
the order `[B, A]`.  The Prober's result lists `B` before `A`: the tie is
broken by completion order, not by input order, refuting the claim as
stated ("stable tie-break by input order ... regardless of the order in
which individual probe tasks complete"). -/
theorem claim_C2_counterexample :
    ([mkNode "B" "sb", mkNode "A" "sa"].Perm [mkNode "A" "sa", mkNode "B" "sb"]) ∧
    aliveOf (netConst 500) [mkNode "B" "sb", mkNode "A" "sa"] =
      [(mkNode "B" "sb", 500), (mkNode "A" "sa", 500)] ∧
    (test_proxies_latency (netConst 500) [mkNode "B" "sb", mkNode "A" "sa"]).map
        (List.map pname) =
      some ["[50ms] B", "[50ms] A"] :=
  ⟨by decide, rfl, rfl⟩

/-- Claim C2 (amended): for every input node list, every latency
assignment and every completion order of the probe tasks, the ranked list
is ordered ascending (non-strictly) by latency, and any two surviving
nodes with equal latency appear in the relative order in which their probe
tasks completed (the sort is stable over the aggregation order); the
returned sequence is exactly that ranked list with the names rewritten. -/
theorem claim_C2 (proxies comp : List RawProxy) (net : Net)
    (hperm : comp.Perm proxies) :
    (sortByLat (aliveOf net comp)).Pairwise (fun a b => a.2 ≤ b.2) ∧
    (∀ t, (sortByLat (aliveOf net comp)).filter (fun q => q.2 == t) =
      (aliveOf net comp).filter (fun q => q.2 == t)) ∧
    (∀ res, test_proxies_latency net comp = some res →
      res = (sortByLat (aliveOf net comp)).map
        (fun q => setName q.1 ("[" ++ natRepr (q.2 / 10) ++ "ms] " ++ pname q.1))) := by
  refine ⟨sortByLat_pairwise _, fun t => filter_sortByLat t _, ?_⟩
  intro res h
  rw [test_proxies_latency] at h
  exact renameAlive_eq_map h

/-- Claim C2, witness: the amended theorem at the two-node instance of the
counterexample. -/
theorem claim_C2_witness :
    ([mkNode "B" "sb", mkNode "A" "sa"].Perm [mkNode "A" "sa", mkNode "B" "sb"]) ∧
    (sortByLat (aliveOf (netConst 500) [mkNode "B" "sb", mkNode "A" "sa"])).Pairwise
      (fun a b => a.2 ≤ b.2) :=
  ⟨by decide,
    (claim_C2 [mkNode "A" "sa", mkNode "B" "sb"] [mkNode "B" "sb", mkNode "A" "sa"]
      (netConst 500) (by decide)).1⟩

/-- Claim C3, counterexample: on the node list `US-node`, `JP-node` the
classifier returns its labels in first-encounter order `[US, JP]`, while
the catalog (`REGION_MAP`, hence `ALL_REGION_NAMES`) lists Japan before
the United States — the ordered mapping does not follow catalog order,
refuting the claim as stated. -/
theorem claim_C3_counterexample :
    (classify_by_region [mkNode "US-node" "s1", mkNode "JP-node" "s2"]).map
        (List.map Prod.fst) =
      some ["🇺🇸 美国", "🇯🇵 日本"] ∧
    List.indexOf "🇯🇵 日本" ALL_REGION_NAMES = 0 ∧
    List.indexOf "🇺🇸 美国" ALL_REGION_NAMES = 1 :=
  ⟨rfl, rfl, rfl⟩

/-- Claim C3 (amended): for every input node list, the ordered mapping
returned by `classify_by_region` lists its region labels in the order the
labels are first encountered among the nodes (not in catalog order), and
it contains exactly those labels that have at least one member. -/
theorem claim_C3 (ps : List RawProxy) (g : List (String × List String))
    (h : classify_by_region ps = some g) :
    g.map Prod.fst = firstKeysAux [] (labelSeq REGION_MAP ps) ∧
    (∀ l, l ∈ g.map Prod.fst ↔
      ∃ p ∈ ps, ∃ n, p.name? = some n ∧ firstRegionIn REGION_MAP n = some l) := by
  constructor
  · have hk := keys_classifyWith REGION_MAP ps [] g h
    simpa using hk
  · intro l
    have hvals := classifyWith_vals_ne REGION_MAP ps [] g (by simp) h
    rw [mem_keys_iff_lookupG_ne g hvals l]
    constructor
    · intro hne
      obtain ⟨x, hx⟩ := List.exists_mem_of_ne_nil _ hne
      rcases (lookupG_classifyWith REGION_MAP ps [] g h l x).mp hx with hacc | ⟨p, hp, hn, hf⟩
      · simp [lookupG] at hacc
      · exact ⟨p, hp, x, hn, hf⟩
    · rintro ⟨p, hp, n, hn, hf⟩
      intro hempty
      have hmem := (lookupG_classifyWith REGION_MAP ps [] g h l n).mpr
        (Or.inr ⟨p, hp, hn, hf⟩)
      rw [hempty] at hmem
      cases hmem

/-- Claim C3, witness: the amended theorem at the two-node instance of the
counterexample. -/
theorem claim_C3_witness :
    classify_by_region [mkNode "US-node" "s1", mkNode "JP-node" "s2"] =
      some [("🇺🇸 美国", ["US-node"]), ("🇯🇵 日本", ["JP-node"])] ∧
    [("🇺🇸 美国", ["US-node"]), ("🇯🇵 日本", ["JP-node"])].map Prod.fst =
      firstKeysAux [] (labelSeq REGION_MAP [mkNode "US-node" "s1", mkNode "JP-node" "s2"]) :=
  ⟨rfl, (claim_C3 [mkNode "US-node" "s1", mkNode "JP-node" "s2"]
    [("🇺🇸 美国", ["US-node"]), ("🇯🇵 日本", ["JP-node"])] rfl).1⟩

/-- Claim C4 (confirmed): for every ordered catalog of (pattern, label)
pairs and every node list, a name appears in a label's group exactly when
some node carries that name and the label is the one of the *first*
pattern in catalog order matching the name — so each name lands in at most
one group and a name matching no pattern is omitted from every group; in
particular, under the fixed catalog (`classify_by_region` is
`classifyWith REGION_MAP []`), the name `JP-Tokyo` is assigned the Japan
label. -/
theorem claim_C4 :
    (∀ (cat : List (List PatAlt × String)) (ps : List RawProxy)
        (g : List (String × List String)),
      classifyWith cat [] ps = some g →
      ∀ l x, x ∈ lookupG g l ↔
        (∃ p ∈ ps, p.name? = some x) ∧ firstRegionIn cat x = some l) ∧
    (∀ ps, classify_by_region ps = classifyWith REGION_MAP [] ps) ∧
    firstRegion "JP-Tokyo" = some "🇯🇵 日本" := by
  refine ⟨?_, fun ps => rfl, rfl⟩
  intro cat ps g h l x
  rw [lookupG_classifyWith cat ps [] g h l x]
  simp only [lookupG, List.not_mem_nil, false_or]
  constructor
  · rintro ⟨p, hp, hn, hf⟩
    exact ⟨⟨p, hp, hn⟩, hf⟩
  · rintro ⟨⟨p, hp, hn⟩, hf⟩
    exact ⟨p, hp, hn, hf⟩

/-- Claim C4, witness: the characterisation applied to the singleton list
containing a node named `JP-node`, classified under the Japan label. -/
theorem claim_C4_witness :
    classify_by_region [mkNode "JP-node" "s"] = some [("🇯🇵 日本", ["JP-node"])] ∧
    ("JP-node" ∈ lookupG [("🇯🇵 日本", ["JP-node"])] "🇯🇵 日本" ↔
      (∃ p ∈ [mkNode "JP-node" "s"], p.name? = some "JP-node") ∧
        firstRegionIn REGION_MAP "JP-node" = some "🇯🇵 日本") :=
  ⟨rfl, claim_C4.1 REGION_MAP [mkNode "JP-node" "s"] [("🇯🇵 日本", ["JP-node"])]
    rfl "🇯🇵 日本" "JP-node"⟩

/-- Claim C5, counterexample: a node `Tokyo-1` measured at 123.6 ms (1236
tenths) is renamed `[123ms] Tokyo-1`, not `[124ms] Tokyo-1`: the source's
`int(latency)` truncates instead of rounding to nearest, refuting the
claim's rounding of 123.6 to 124. -/
theorem claim_C5_counterexample :
    (test_proxies_latency (netConst 1236) [mkNode "Tokyo-1" "s"]).map (List.map pname) =
      some ["[123ms] Tokyo-1"] ∧
    ("[123ms] Tokyo-1" : String) ≠ "[124ms] Tokyo-1" :=
  ⟨rfl, by decide⟩

/-- Claim C5 (amended): for every surviving node, the Prober rewrites its
display name to prefix the measured latency *truncated* (rounded down) to
the whole millisecond — 123.4 ms and 123.6 ms both become `[123ms] …` —
and this rewrite is applied only after the ranking is finalised
(the renaming maps over the latency-sorted survivor list) and only to
surviving nodes. -/
theorem claim_C5 (net : Net) (comp : List RawProxy) (res : List RawProxy)
    (h : test_proxies_latency net comp = some res) :
    res = (sortByLat (aliveOf net comp)).map
      (fun q => setName q.1 ("[" ++ natRepr (q.2 / 10) ++ "ms] " ++ pname q.1)) ∧
    (sortByLat (aliveOf net comp)).Pairwise (fun a b => a.2 ≤ b.2) := by
  rw [test_proxies_latency] at h
  exact ⟨renameAlive_eq_map h, sortByLat_pairwise _⟩

/-- Claim C5, witness: the amended theorem at the 123.6 ms instance; the
survivor is renamed with the truncated prefix `[123ms]`. -/
theorem claim_C5_witness :
    test_proxies_latency (netConst 1236) [mkNode "Tokyo-1" "s"] =
      some [setName (mkNode "Tokyo-1" "s") "[123ms] Tokyo-1"] ∧
    [setName (mkNode "Tokyo-1" "s") "[123ms] Tokyo-1"] =
      (sortByLat (aliveOf (netConst 1236) [mkNode "Tokyo-1" "s"])).map
        (fun q => setName q.1 ("[" ++ natRepr (q.2 / 10) ++ "ms] " ++ pname q.1)) :=
  ⟨rfl, (claim_C5 (netConst 1236) [mkNode "Tokyo-1" "s"]
    [setName (mkNode "Tokyo-1" "s") "[123ms] Tokyo-1"] rfl).1⟩

/-- Claim C6 (confirmed): every node surviving `filter_blocked_regions`
has a name that does not match the blocked pattern, every non-matching
node survives (equivalently, every removed node matches), and the
survivors keep their input relative order (the output is a sublist of the
input). -/
theorem claim_C6 (ps : List RawProxy) :
    (∀ p ∈ filter_blocked_regions ps, blockedName (pname p) = false) ∧
    (∀ p ∈ ps, blockedName (pname p) = false → p ∈ filter_blocked_regions ps) ∧
    (∀ p ∈ ps, p ∉ filter_blocked_regions ps → blockedName (pname p) = true) ∧
    (filter_blocked_regions ps).Sublist ps := by
  refine ⟨?_, ?_, ?_, List.filter_sublist ps⟩
  · intro p hp
    rw [filter_blocked_regions] at hp
    have hb := List.of_mem_filter hp
    simpa using hb
  · intro p hp hb
    rw [filter_blocked_regions]
    exact List.mem_filter.mpr ⟨hp, by simp [hb]⟩
  · intro p hp hnot
    by_contra hb
    rw [Bool.not_eq_true] at hb
    exact hnot (List.mem_filter.mpr ⟨hp, by simp [hb]⟩)

/-- Claim C6, witness: on the list `CN-node`, `JP-node` the blocked node
matches the pattern and the non-matching node survives. -/
theorem claim_C6_witness :
    blockedName (pname (mkNode "CN-node" "s")) = true ∧
    mkNode "JP-node" "s" ∈
      filter_blocked_regions [mkNode "CN-node" "s", mkNode "JP-node" "s"] :=
  ⟨rfl, (claim_C6 [mkNode "CN-node" "s", mkNode "JP-node" "s"]).2.1
    (mkNode "JP-node" "s") (by decide) rfl⟩

/-- Reduction of `build_config` when both the name collection and the
classification succeed. -/
theorem build_config_eq (ps : List RawProxy) (all_names : List String)
    (g : List (String × List String))
    (hm : ps.mapM (fun p => p.name?) = some all_names)
    (hg : classify_by_region ps = some g) :
    build_config ps = some ⟨ps,
      fixedGroups all_names (ALL_REGION_NAMES.filter (fun r => hasKey g r)) ++
        ALL_REGION_NAMES.map (fun r =>
          if hasKey g r then ⟨r, "select", lookupG g r⟩ else ⟨r, "select", ["REJECT"]⟩),
      build_rules⟩ := by
  unfold build_config
  rw [hm, hg]

/-- Claim C7 (confirmed): whenever `build_config` succeeds, the tail of
its group list after the ten fixed groups is exactly one selection group
per label of the catalog, in catalog order: the label's member names when
the classification recorded any, and the placeholder `["REJECT"]`
otherwise — the group-name sequence is always `ALL_REGION_NAMES`. -/
theorem claim_C7 (ps : List RawProxy) (cfg : MetaConfig)
    (g : List (String × List String))
    (hc : build_config ps = some cfg) (hg : classify_by_region ps = some g) :
    cfg.proxy_groups.drop 10 = ALL_REGION_NAMES.map (fun r =>
      if hasKey g r then ⟨r, "select", lookupG g r⟩ else ⟨r, "select", ["REJECT"]⟩) ∧
    (cfg.proxy_groups.drop 10).map PGroup.gname = ALL_REGION_NAMES := by
  rcases hm : ps.mapM (fun p => p.name?) with _ | all_names
  · rw [build_config, hm] at hc
    cases hc
  · rw [build_config_eq ps all_names g hm hg] at hc
    injection hc with hc
    rw [← hc]
    have hdrop : (fixedGroups all_names (ALL_REGION_NAMES.filter (fun r => hasKey g r)) ++
        ALL_REGION_NAMES.map (fun r =>
          if hasKey g r then (⟨r, "select", lookupG g r⟩ : PGroup)
          else ⟨r, "select", ["REJECT"]⟩)).drop 10 =
        ALL_REGION_NAMES.map (fun r =>
          if hasKey g r then (⟨r, "select", lookupG g r⟩ : PGroup)
          else ⟨r, "select", ["REJECT"]⟩) := by
      have hlen : (fixedGroups all_names
          (ALL_REGION_NAMES.filter (fun r => hasKey g r))).length = 10 := rfl
      rw [← hlen, List.drop_left]
    rw [hdrop]
    refine ⟨rfl, ?_⟩
    rw [List.map_map]
    have hcomp : (PGroup.gname ∘ fun r =>
        if hasKey g r then (⟨r, "select", lookupG g r⟩ : PGroup)
        else ⟨r, "select", ["REJECT"]⟩) = id := by
      funext r
      by_cases hr : hasKey g r = true
      · simp [hr]
      · simp [hr]
    rw [hcomp, List.map_id]

/-- Claim C7, witness: for the single node `JP-node`, the eleventh group
onward is the Japan group with its one member followed by eleven
`["REJECT"]` placeholder groups, in catalog order. -/
theorem claim_C7_witness :
    ∃ cfg g, build_config [mkNode "JP-node" "s"] = some cfg ∧
      classify_by_region [mkNode "JP-node" "s"] = some g ∧
      cfg.proxy_groups.drop 10 = ALL_REGION_NAMES.map (fun r =>
        if hasKey g r then ⟨r, "select", lookupG g r⟩ else ⟨r, "select", ["REJECT"]⟩) :=
  ⟨_, _, rfl, rfl, (claim_C7 [mkNode "JP-node" "s"] _ _ rfl rfl).1⟩

/-- Claim C8 (confirmed): the driver produces no configuration when the
probe returns an empty result, when nothing survives the region filter,
or when deduplication leaves nothing (the filter of an empty list is
empty); and a configuration is produced only when every stage ends
non-empty. -/
theorem claim_C8 (raw : List RawProxy) (net : Net)
    (sched : List RawProxy → List RawProxy) :
    (test_proxies_latency net (sched (filter_blocked_regions (deduplicate_proxies raw))) =
        some [] → runPipeline raw net sched = none) ∧
    (filter_blocked_regions (deduplicate_proxies raw) = [] →
      runPipeline raw net sched = none) ∧
    (deduplicate_proxies raw = [] → runPipeline raw net sched = none) ∧
    (∀ cfg, runPipeline raw net sched = some cfg →
      deduplicate_proxies raw ≠ [] ∧
      filter_blocked_regions (deduplicate_proxies raw) ≠ [] ∧
      ∃ t, test_proxies_latency net
          (sched (filter_blocked_regions (deduplicate_proxies raw))) = some t ∧
        t ≠ [] ∧ build_config t = some cfg) := by
  have h2 : filter_blocked_regions (deduplicate_proxies raw) = [] →
      runPipeline raw net sched = none := by
    intro hf
    simp only [runPipeline]
    split
    · rfl
    · rw [hf]
      rfl
  refine ⟨?_, h2, ?_, ?_⟩
  · intro ht
    simp only [runPipeline]
    split
    · rfl
    · split
      · rfl
      · rw [ht]
        rfl
  · intro hd
    apply h2
    rw [hd]
    rfl
  · intro cfg hcfg
    simp only [runPipeline] at hcfg
    by_cases hraw : raw.isEmpty
    · rw [if_pos hraw] at hcfg; cases hcfg
    · rw [if_neg hraw] at hcfg
      by_cases hf : (filter_blocked_regions (deduplicate_proxies raw)).isEmpty
      · rw [if_pos hf] at hcfg; cases hcfg
      · rw [if_neg hf] at hcfg
        rcases ht : test_proxies_latency net
            (sched (filter_blocked_regions (deduplicate_proxies raw))) with _ | t
        · rw [ht] at hcfg; cases hcfg
        · simp only [ht] at hcfg
          by_cases hte : t.isEmpty
          · rw [if_pos hte] at hcfg; cases hcfg
          · rw [if_neg hte] at hcfg
            refine ⟨?_, ?_, t, rfl, ?_, hcfg⟩
            · intro hd
              apply hf
              rw [hd]
              rfl
            · intro hfe
              apply hf
              rw [hfe]
              rfl
            · intro hte'
              apply hte
              rw [hte']
              rfl

/-- Claim C8, witness: a single blocked node leaves the filter empty and
the driver emits nothing. -/
theorem claim_C8_witness :
    filter_blocked_regions (deduplicate_proxies [mkNode "CN-node" "s"]) = [] ∧
    runPipeline [mkNode "CN-node" "s"] (netConst 500) id = none :=
  ⟨rfl, (claim_C8 [mkNode "CN-node" "s"] (netConst 500) id).2.1 rfl⟩

/-- Claim C9, counterexample: the input names `JP x`, ` JP x`, `JP x_1`
are pairwise distinct, non-empty, well-formed and unfiltered — they
satisfy the claim's "already deduplicated and already filtered"
conditions — yet the second of the untrimmed names collides after
stripping, so the first pass emits a duplicate `JP x_1`, and the second
pass renames it to `JP x_1_1`: the grouping after two passes differs from
the grouping after one, refuting the claim as stated. -/
theorem claim_C9_counterexample :
    (∀ p ∈ xsC9, validEntry p = true) ∧
    ((xsC9.map pname).Nodup) ∧
    (∀ p ∈ xsC9, pname p ≠ "") ∧
    (∀ p ∈ xsC9, blockedName (pname p) = false) ∧
    classify_by_region (filter_blocked_regions (deduplicate_proxies xsC9)) =
      some [("🇯🇵 日本", ["JP x", "JP x_1", "JP x_1"])] ∧
    classify_by_region (filter_blocked_regions (deduplicate_proxies
        (filter_blocked_regions (deduplicate_proxies xsC9)))) =
      some [("🇯🇵 日本", ["JP x", "JP x_1", "JP x_1_1"])] ∧
    some [("🇯🇵 日本", ["JP x", "JP x_1", "JP x_1"])] ≠
      some [("🇯🇵 日本", ["JP x", "JP x_1", "JP x_1_1"])] :=
  ⟨by decide, by decide, by decide, by decide, rfl, rfl, by decide⟩

/-- Claim C9 (amended): for every input that is already deduplicated (all
names unique, non-empty, *and whitespace-trimmed*, required fields
present) and already filtered (no name matches the blocked pattern),
applying Normalizer then Region Filter then Classifier a second time
yields exactly the same grouping as applying the composition once — under
these conditions the Normalizer and the Filter are the identity.  (The
trimmed-names condition is exactly what the counterexample violates.) -/
theorem claim_C9 (raw : List RawProxy)
    (hval : ∀ p ∈ raw, validEntry p = true)
    (htrim : ∀ p ∈ raw, pyStrip (pname p) = pname p)
    (hne : ∀ p ∈ raw, pname p ≠ "")
    (hnd : (raw.map pname).Nodup)
    (hblk : ∀ p ∈ raw, blockedName (pname p) = false) :
    classify_by_region (filter_blocked_regions (deduplicate_proxies
        (filter_blocked_regions (deduplicate_proxies raw)))) =
      classify_by_region (filter_blocked_regions (deduplicate_proxies raw)) := by
  have hd : deduplicate_proxies raw = raw := dedup_eq_self raw hval htrim hne hnd
  have hfb : filter_blocked_regions raw = raw := filterB_eq_self raw hblk
  rw [hd, hfb, hd, hfb]

/-- Claim C9, witness: the amended theorem on a clean two-node list. -/
theorem claim_C9_witness :
    ((∀ p ∈ [mkNode "JP-node" "s", mkNode "US-node" "s"], validEntry p = true) ∧
      (∀ p ∈ [mkNode "JP-node" "s", mkNode "US-node" "s"], pyStrip (pname p) = pname p) ∧
      (∀ p ∈ [mkNode "JP-node" "s", mkNode "US-node" "s"], pname p ≠ "") ∧
      (([mkNode "JP-node" "s", mkNode "US-node" "s"].map pname).Nodup) ∧
      (∀ p ∈ [mkNode "JP-node" "s", mkNode "US-node" "s"], blockedName (pname p) = false)) ∧
    classify_by_region (filter_blocked_regions (deduplicate_proxies
        (filter_blocked_regions (deduplicate_proxies
          [mkNode "JP-node" "s", mkNode "US-node" "s"])))) =
      classify_by_region (filter_blocked_regions (deduplicate_proxies
        [mkNode "JP-node" "s", mkNode "US-node" "s"])) :=
  ⟨⟨by decide, by decide, by decide, by decide, by decide⟩,
    claim_C9 [mkNode "JP-node" "s", mkNode "US-node" "s"]
      (by decide) (by decide) (by decide) (by decide) (by decide)⟩

/-- Claim C10 (confirmed): a node whose `server` key is absent or empty,
or whose `port` is absent, the number 0, or not convertible to an integer,
is classified unreachable by `test_single_proxy` for *every* network
oracle — the guards run before any connection is attempted, so the
outcome cannot depend on the network — and such a node never contributes
a survivor to the Prober's collected result. -/
theorem claim_C10 (p : RawProxy)
    (h : p.server? = none ∨ p.server? = some "" ∨ p.port = PortField.missing ∨
      p.port = PortField.intVal 0 ∨ portToInt p.port = none) :
    (∀ net : Net, test_single_proxy net p = (p, none)) ∧
    (∀ (net : Net) (comp : List RawProxy) (t : Nat), (p, t) ∉ aliveOf net comp) := by
  have h1 : ∀ net : Net, test_single_proxy net p = (p, none) := by
    intro net
    rw [test_single_proxy]
    rcases h with hs | hs | hp | hp | hp
    · simp [hs]
    · simp [hs]
    · simp [hp, portTruthy]
    · simp [hp, portTruthy]
    · simp [hp]
  refine ⟨h1, ?_⟩
  intro net comp t hmem
  have hp2 := (mem_aliveOf hmem).2
  rw [h1 net] at hp2
  simp at hp2

/-- Claim C10, witness: a node with no `port` key is reported unreachable
under an oracle for which every connection would succeed. -/
theorem claim_C10_witness :
    (⟨true, some "N", true, some "h", PortField.missing⟩ : RawProxy).port =
      PortField.missing ∧
    test_single_proxy (netConst 100) ⟨true, some "N", true, some "h", PortField.missing⟩ =
      (⟨true, some "N", true, some "h", PortField.missing⟩, none) :=
  ⟨rfl, (claim_C10 ⟨true, some "N", true, some "h", PortField.missing⟩
    (Or.inr (Or.inr (Or.inl rfl)))).1 (netConst 100)⟩
